import Mathlib

/-!
# Verification of the gitstats statistics engine

A shallow embedding of the core of `src/gitService.ts` (the `GitService`
class): the history-log parsing and aggregation loop of `getGitStats`, the
date-axis generator `generateDateRange`, the branch catalog builder
`getBranches`, and the facade `getGitStats` itself with the external
`git` process modelled as an environment function from argument lists to
results.

JavaScript strings are modelled as Lean `String` (a wrapper around
`List Char`); the JavaScript string operations used by the source
(`trim`, `split`, `includes`, `replace`) are implemented here on the
character-list representation with JS semantics.  JavaScript numbers, as
they occur in this code path, are either integers or `NaN` (`parseInt`
either returns an integer or `NaN`, and all further operations are sums
and differences, with `NaN` propagating); they are modelled by `JsNum`.
-/

/-! ## JS string primitives -/

/-- Whitespace test used by `trim` (space, tab, CR, LF). -/
def isWsChar (c : Char) : Bool := c.isWhitespace

/-- Character-list version of JS `String.prototype.trim`. -/
def trimChars (l : List Char) : List Char :=
  ((l.dropWhile isWsChar).reverse.dropWhile isWsChar).reverse

/-- JS `s.trim()`. -/
def jsTrim (s : String) : String := String.mk (trimChars s.data)

/-- Splitting worker: scans left to right, emitting a fragment each time
the (non-empty) separator occurs, consuming it.  The fuel argument is set
to the input length by `splitOnChars`, which is always sufficient since
each step consumes at least one character. -/
def splitFuel (sep : List Char) : Nat → List Char → List Char → List (List Char)
  | 0, l, acc => [acc.reverse ++ l]
  | fuel + 1, l, acc =>
    match l with
    | [] => [acc.reverse]
    | c :: rest =>
      if sep.isPrefixOf l then
        acc.reverse :: splitFuel sep fuel (l.drop sep.length) []
      else
        splitFuel sep fuel rest (c :: acc)

/-- Character-list version of JS `String.prototype.split` with a
non-empty string separator. -/
def splitOnChars (sep l : List Char) : List (List Char) :=
  splitFuel sep l.length l []

/-- JS `s.split(sep)`. -/
def jsSplit (sep s : String) : List String :=
  (splitOnChars sep.data s.data).map String.mk

/-- Does `sep` occur as a contiguous substring? -/
def containsSub (sep : List Char) : List Char → Bool
  | [] => sep.isEmpty
  | c :: rest => sep.isPrefixOf (c :: rest) || containsSub sep rest

/-- JS `s.includes(sub)`. -/
def jsIncludes (s sub : String) : Bool := containsSub sub.data s.data

/-- Character-list version of JS `String.prototype.replace` with a plain
string pattern: replaces the first occurrence only. -/
def replaceFirstChars (pat repl : List Char) : List Char → List Char
  | [] => []
  | c :: rest =>
    if pat.isPrefixOf (c :: rest) ∧ pat ≠ [] then
      repl ++ (c :: rest).drop pat.length
    else
      c :: replaceFirstChars pat repl rest

/-- JS `s.replace(pat, repl)` (first occurrence, plain-string pattern). -/
def jsReplace (s pat repl : String) : String :=
  String.mk (replaceFirstChars pat.data repl.data s.data)

/-! ## JS numbers on this code path

`parseInt` yields either an integer or `NaN`; everything downstream is
addition and subtraction, under which the reachable value space is
exactly "an integer or `NaN`". -/

/-- A JavaScript number as it can occur in the statistics maps. -/
inductive JsNum where
  | nan : JsNum
  | int : Int → JsNum
deriving DecidableEq, Repr

/-- JS `+` on numbers (`NaN` propagates). -/
def JsNum.add : JsNum → JsNum → JsNum
  | .int a, .int b => .int (a + b)
  | _, _ => .nan

/-- JS `-` on numbers (`NaN` propagates). -/
def JsNum.sub : JsNum → JsNum → JsNum
  | .int a, .int b => .int (a - b)
  | _, _ => .nan

/-- JS `x || 0` applied to a possibly-missing map entry: `undefined` and
`NaN` are falsy (so is `0`, but `0 || 0 = 0`). -/
def jsOrZero : Option JsNum → JsNum
  | some (.int n) => .int n
  | _ => .int 0

/-- Digit-prefix part of JS `parseInt(s, 10)`: the leading decimal
digits, or `NaN` if there are none. -/
def parseIntCore (cs : List Char) : JsNum :=
  let ds := cs.takeWhile Char.isDigit
  if ds.isEmpty then .nan
  else .int (ds.foldl (fun acc c => 10 * acc + (c.toNat - 48)) 0)

/-- JS `parseInt(s, 10)`: skip leading whitespace, optional sign, then
leading decimal digits (trailing garbage ignored); `NaN` when no digits
follow.  Crucially, `parseInt` never throws. -/
def parseIntJs (s : String) : JsNum :=
  match s.data.dropWhile Char.isWhitespace with
  | '-' :: rest =>
    match parseIntCore rest with
    | .int n => .int (-n)
    | .nan => .nan
  | '+' :: rest => parseIntCore rest
  | cs => parseIntCore cs

/-! ## JS objects used as string-keyed maps

Modelled as association lists in insertion order: assignment to an
existing key overwrites in place, assignment to a fresh key appends. -/

/-- Read `obj[k]` (`none` models `undefined`). -/
def aget {α : Type} : List (String × α) → String → Option α
  | [], _ => none
  | (k', v) :: rest, k => if k' = k then some v else aget rest k

/-- Write `obj[k] = v`. -/
def aset {α : Type} : List (String × α) → String → α → List (String × α)
  | [], k, v => [(k, v)]
  | (k', v') :: rest, k, v =>
    if k' = k then (k', v) :: rest else (k', v') :: aset rest k v

/-! ## The author-line pattern

`authorLine.match(/(.*) <(.*)>/)`: both groups are greedy, so the match
(when it exists) takes `name` to be everything before the last `" <"`
that is still followed by a `'>'`, and `email` to be everything from
there up to the last `'>'` of the remainder. -/

/-- Index of the last occurrence of `c`, if any. -/
def lastIdxOf (c : Char) : List Char → Option Nat
  | [] => none
  | x :: xs =>
    match lastIdxOf c xs with
    | some i => some (i + 1)
    | none => if x = c then some 0 else none

/-- Split `l` as `p ++ ' ' :: '<' :: q` with `p` maximal such that `q`
still contains a `'>'` (the backtracking of the greedy first group). -/
def splitAtAuthorSep : List Char → Option (List Char × List Char)
  | [] => none
  | a :: rest =>
    match splitAtAuthorSep rest with
    | some (p, q) => some (a :: p, q)
    | none =>
      match rest with
      | '<' :: q => if a = ' ' && q.contains '>' then some ([], q) else none
      | _ => none

/-- The regex match `/(.*) <(.*)>/` of the source, returning
`(name, email)` on success. -/
def matchAuthor (s : String) : Option (String × String) :=
  match splitAtAuthorSep s.data with
  | none => none
  | some (p, q) =>
    match lastIdxOf '>' q with
    | none => none
    | some j => some (String.mk p, String.mk (q.take j))

/-! ## Parsing and aggregation (`getGitStats`, the loop over commits)

Translated from `gitService.ts`: the five result maps and the
`for (const commit of commits)` loop. -/

/-- The five aggregation maps built by `getGitStats`. -/
structure LogStats where
  authorNames : List (String × String)
  addedLines : List (String × JsNum)
  removedLines : List (String × JsNum)
  netLines : List (String × JsNum)
  commitsByDate : List (String × List (String × Nat))
deriving DecidableEq, Repr

/-- All five maps start empty. -/
def initialStats : LogStats := ⟨[], [], [], [], []⟩

/-- The ternary `parts[i] !== '-' ? parseInt(parts[i], 10) : 0` applied
to a numstat field.  `parseInt` yields `NaN` (not an exception) on
garbage, so the `try/catch` of the source never fires. -/
def fieldNum (f : String) : JsNum :=
  if f ≠ "-" then parseIntJs f else .int 0

/-- One iteration of the numstat loop (source lines 542–556): a line with
exactly 3 tab-separated fields updates the three line-count maps; any
other line is ignored. -/
def processDeltaLine (email : String) (st : LogStats) (line : String) : LogStats :=
  let parts := jsSplit "\t" (jsTrim line)
  if parts.length = 3 then
    let added : JsNum := fieldNum (parts.getD 0 "")
    let removed : JsNum := fieldNum (parts.getD 1 "")
    { st with
      addedLines :=
        aset st.addedLines email (JsNum.add (jsOrZero (aget st.addedLines email)) added),
      removedLines :=
        aset st.removedLines email (JsNum.add (jsOrZero (aget st.removedLines email)) removed),
      netLines :=
        aset st.netLines email
          (JsNum.add (jsOrZero (aget st.netLines email)) (JsNum.sub added removed)) }
  else st

/-- `commitsByDate[date][email] = (commitsByDate[date][email] || 0) + 1`,
initialising the inner map if necessary. -/
def bumpCommit (cbd : List (String × List (String × Nat))) (date email : String) :
    List (String × List (String × Nat)) :=
  let inner := (aget cbd date).getD []
  aset cbd date (aset inner email ((aget inner email).getD 0 + 1))

/-- One iteration of the commit loop (source lines 521–557): entries with
fewer than two lines, or whose second line does not match the author
pattern, are skipped whole; otherwise the author is recorded, the commit
counted, and the remaining lines run through the numstat loop. -/
def processCommit (st : LogStats) (commit : String) : LogStats :=
  let lines := jsSplit "\n" (jsTrim commit)
  if lines.length < 2 then st
  else
    let date := jsTrim (lines.getD 0 "")
    let authorLine := jsTrim (lines.getD 1 "")
    match matchAuthor authorLine with
    | none => st
    | some (name, email) =>
      let st' :=
        { st with
          authorNames := aset st.authorNames email name,
          commitsByDate := bumpCommit st.commitsByDate date email }
      (lines.drop 2).foldl (processDeltaLine email) st'

/-- The whole parse-and-aggregate phase of `getGitStats`: split the log
output on the `--SPLIT--` sentinel and fold the commit loop. -/
def processLogOutput (output : String) : LogStats :=
  (jsSplit "--SPLIT--" output).foldl processCommit initialStats

example :
    processLogOutput "--SPLIT--\n2024-01-01\nAlice <a@x>\n10\t2\tsrc/a.ts" =
      { authorNames := [("a@x", "Alice")],
        addedLines := [("a@x", .int 10)],
        removedLines := [("a@x", .int 2)],
        netLines := [("a@x", .int 8)],
        commitsByDate := [("2024-01-01", [("a@x", 1)])] } := by rfl

/-! ## Dates and `generateDateRange`

A JS `Date`, as used by `generateDateRange`, is a calendar day plus a
time-of-day; the source compares dates by their timestamp and steps with
`setDate(getDate() + 1)` (next calendar day).  We model the day as a
proleptic-Gregorian `(year, month, day)` triple — which is what
`new Date("YYYY-MM-DD")` denotes in UTC — and the time-of-day as
milliseconds since midnight. -/

/-- A calendar day. -/
structure Ymd where
  y : Nat
  m : Nat
  d : Nat
deriving DecidableEq, Repr

/-- Gregorian leap-year test (as implemented by JS `Date`). -/
def isLeap (y : Nat) : Bool := (y % 4 == 0 && y % 100 != 0) || y % 400 == 0

/-- Length of month `m` (1–12) of year `y`. -/
def daysInMonth (y m : Nat) : Nat :=
  if m = 2 then (if isLeap y then 29 else 28)
  else if m = 4 ∨ m = 6 ∨ m = 9 ∨ m = 11 then 30
  else 31

/-- Days in months `1..m` of year `y`. -/
def daysThroughMonth (y : Nat) : Nat → Nat
  | 0 => 0
  | m + 1 => daysThroughMonth y m + daysInMonth y (m + 1)

/-- Number of leap years among `0, 1, …, y - 1` (year 0 is leap). -/
def leapsBefore (y : Nat) : Nat := (y + 3) / 4 - (y + 99) / 100 + (y + 399) / 400

/-- A linear day index: strictly monotone in calendar order on valid
dates, and increasing by exactly 1 from one day to the next. -/
def dayNumber (x : Ymd) : Nat :=
  365 * x.y + leapsBefore x.y + daysThroughMonth x.y (x.m - 1) + x.d

/-- The calendar successor: models `current.setDate(current.getDate() + 1)`
on a valid date. -/
def nextDay (x : Ymd) : Ymd :=
  if x.d < daysInMonth x.y x.m then ⟨x.y, x.m, x.d + 1⟩
  else if x.m < 12 then ⟨x.y, x.m + 1, 1⟩
  else ⟨x.y + 1, 1, 1⟩

/-- A well-formed calendar date. -/
def ValidYmd (x : Ymd) : Prop :=
  1 ≤ x.m ∧ x.m ≤ 12 ∧ 1 ≤ x.d ∧ x.d ≤ daysInMonth x.y x.m

instance : DecidablePred ValidYmd := fun x => by unfold ValidYmd; infer_instance

/-- `'0' + d`. -/
def digitChar (d : Nat) : Char := Char.ofNat (48 + d)

/-- Two-digit zero-padded numeral (the `MM` / `dd` tokens of the
`date-fns` format string). -/
def pad2 (n : Nat) : List Char :=
  if n < 100 then [digitChar (n / 10), digitChar (n % 10)] else (Nat.repr n).data

/-- Four-digit zero-padded numeral (the `yyyy` token). -/
def pad4 (n : Nat) : List Char :=
  if n < 10000 then pad2 (n / 100) ++ pad2 (n % 100) else (Nat.repr n).data

/-- `format(current, 'yyyy-MM-dd')`. -/
def fmtYmd (x : Ymd) : String :=
  String.mk (pad4 x.y ++ '-' :: pad2 x.m ++ '-' :: pad2 x.d)

/-- Milliseconds in a day. -/
def msPerDay : Nat := 86400000

/-- Timestamp of a day plus a time-of-day offset. -/
def toMs (x : Ymd) (t : Nat) : Nat := dayNumber x * msPerDay + t

/-- The `while (current <= endDate)` loop of `generateDateRange`.  The
fuel is set by `generateDateRange` to a provably sufficient bound (the
day index grows by 1 each iteration and the loop stops once it exceeds
the end day's index). -/
def genLoop : Nat → Ymd → Nat → Nat → List String
  | 0, _, _, _ => []
  | fuel + 1, cur, t, endMs =>
    if toMs cur t ≤ endMs then fmtYmd cur :: genLoop fuel (nextDay cur) t endMs
    else []

/-- `generateDateRange(startDate, endDate)` from the source: normalise
the end to the last millisecond of its day (`setHours(23,59,59,999)`),
then push `format(current, 'yyyy-MM-dd')` day by day while
`current <= endDate`. -/
def generateDateRange (s e : Ymd × Nat) : List String :=
  genLoop (dayNumber e.1 + 1) s.1 s.2 (dayNumber e.1 * msPerDay + (msPerDay - 1))

example :
    generateDateRange (⟨2024, 2, 27⟩, 0) (⟨2024, 3, 1⟩, 0) =
      ["2024-02-27", "2024-02-28", "2024-02-29", "2024-03-01"] := by rfl

example : generateDateRange (⟨2024, 5, 10⟩, 0) (⟨2024, 5, 1⟩, 0) = [] := by rfl

example :
    generateDateRange (⟨1999, 12, 30⟩, 0) (⟨2000, 1, 2⟩, 0) =
      ["1999-12-30", "1999-12-31", "2000-01-01", "2000-01-02"] := by rfl

/-! ## Branch catalog (`getBranches`, source lines 355–401) -/

/-- Classification of a catalog entry. -/
inductive BranchKind where
  | localBranch : BranchKind
  | remoteBranch : BranchKind
deriving DecidableEq, Repr

/-- The value stored under a display name in the catalog. -/
structure BranchEntry where
  kind : BranchKind
  fullName : String
deriving DecidableEq, Repr

/-- JS `Array.prototype.join(sep)`. -/
def joinSep (sep : String) : List String → String
  | [] => ""
  | [x] => x
  | x :: xs => x ++ sep ++ joinSep sep xs

/-- One local listing line: strip the current-branch `*` marker, trim,
and record a local entry keyed and referenced by the bare name. -/
def processLocalLine (branches : List (String × BranchEntry)) (line : String) :
    List (String × BranchEntry) :=
  let branchName := jsTrim (jsReplace line "*" "")
  aset branches branchName ⟨.localBranch, branchName⟩

/-- One remote listing line: skip symbolic `HEAD ->` pointers; otherwise
split on `/` into remote and branch name and record a remote entry keyed
by `name (remote)` referencing the full `remote/name`. -/
def processRemoteLine (branches : List (String × BranchEntry)) (line : String) :
    List (String × BranchEntry) :=
  let fullName := jsTrim line
  if jsIncludes fullName "HEAD ->" then branches
  else
    let parts := jsSplit "/" fullName
    if 2 ≤ parts.length then
      let remote := parts.getD 0 ""
      let branchName := joinSep "/" (parts.drop 1)
      let displayName := branchName ++ " (" ++ remote ++ ")"
      aset branches displayName ⟨.remoteBranch, fullName⟩
    else branches

/-- Merge the two listings into the catalog: non-blank local lines first,
then non-blank remote lines. -/
def buildBranches (localOutput remoteOutput : String) : List (String × BranchEntry) :=
  let b0 := ((jsSplit "\n" localOutput).filter
    (fun l => 0 < (jsTrim l).length)).foldl processLocalLine []
  ((jsSplit "\n" remoteOutput).filter
    (fun l => 0 < (jsTrim l).length)).foldl processRemoteLine b0

/-! ## The external process

`executeGitCommand(workspacePath, args)` either resolves with captured
stdout or rejects with an error.  With the working directory fixed, a
repository-plus-git-binary state is a function from argument lists to
results; alongside each result we record the issued commands, so that
"this query was never issued" is expressible. -/

/-- The environment: what the `git` binary replies to each argument
list. -/
def GitEnv : Type := List String → Except String String

/-- `git branch`. -/
def branchCmd : List String := ["branch"]

/-- `git branch -r`. -/
def branchRCmd : List String := ["branch", "-r"]

/-- `git rev-parse --abbrev-ref HEAD` (current branch). -/
def revParseCmd : List String := ["rev-parse", "--abbrev-ref", "HEAD"]

/-- `git show-ref --quiet --verify refs/heads/<b>` (branch existence). -/
def showRefCmd (b : String) : List String :=
  ["show-ref", "--quiet", "--verify", "refs/heads/" ++ b]

/-- `getBranches`: run the two listing queries and merge them; the
surrounding `try/catch` swallows a failure of either query (logging it)
and yields an empty catalog, never issuing the remote query when the
local one already failed.  Returns the catalog and the issued
commands. -/
def getBranches (env : GitEnv) : List (String × BranchEntry) × List (List String) :=
  match env branchCmd with
  | .error _ => ([], [branchCmd])
  | .ok localOutput =>
    match env branchRCmd with
    | .error _ => ([], [branchCmd, branchRCmd])
    | .ok remoteOutput => (buildBranches localOutput remoteOutput, [branchCmd, branchRCmd])

/-! ## The facade (`getGitStats`, source lines 469–584) -/

/-- JS truthiness of the nullable string arguments (`null`/`undefined`
and `""` are falsy). -/
def jsTruthy : Option String → Bool
  | none => false
  | some s => s ≠ ""

/-- Argument-list assembly of `runGitLog` (source lines 440–464). -/
def logCmd (dateRange : Option String) (branch : String) : List String :=
  let cmd := ["log", branch]
  let cmd :=
    match dateRange with
    | none => cmd
    | some dr =>
      let cmd := if jsIncludes dr "--after=" then cmd ++ [(jsSplit " " dr).getD 0 ""] else cmd
      if jsIncludes dr "--before=" then
        cmd ++ [if 1 < (jsSplit " " dr).length then (jsSplit " " dr).getD 1 "" else dr]
      else cmd
  cmd ++ ["--pretty=format:--SPLIT--%n%ad%n%an <%ae>", "--date=short", "--numstat"]

/-- The host builtin `new Date(string)` applied to the `YYYY-MM-DD`
date-argument strings of the facade: the denoted UTC-midnight calendar
day.  (Arguments of any other shape are mapped to a fixed day; no claim
depends on them.) -/
def parseJsDate (s : String) : Ymd × Nat :=
  match (jsSplit "-" s).map (fun p => match parseIntJs p with | .int n => n.toNat | .nan => 0) with
  | [y, m, d] => (⟨y, m, d⟩, 0)
  | _ => (⟨1970, 1, 1⟩, 0)

/-- `Object.keys(commitsByDate).sort()`: JS default sort is ascending by
code units; modelled as an insertion sort with lexicographic
character-list comparison. -/
def listLeB : List Char → List Char → Bool
  | [], _ => true
  | _ :: _, [] => false
  | a :: as, b :: bs => if a < b then true else if b < a then false else listLeB as bs

/-- Insert into a sorted list. -/
def insertSorted (a : String) : List String → List String
  | [] => [a]
  | b :: bs => if listLeB a.data b.data then a :: b :: bs else b :: insertSorted a bs

/-- Sort a list of strings ascending. -/
def sortStrings (l : List String) : List String := l.foldr insertSorted []

/-- Date-range configuration (source lines 489–507): returns the
`dateRange` option string for the log query, the explicit dense date
axis when both bounds are given, and the resolved start/end labels. -/
def computeRange (sArg eArg : Option String) :
    Option String × Option (List String) × String × String :=
  if sArg = some "all" then
    (if jsTruthy eArg then some ("--before=" ++ eArg.getD "") else none,
     none, "Beginning", "Now")
  else if jsTruthy sArg && !(sArg == some "all") && jsTruthy eArg && !(eArg == some "all") then
    (some ("--after=" ++ sArg.getD "" ++ " --before=" ++ eArg.getD ""),
     some (generateDateRange (parseJsDate (sArg.getD "")) (parseJsDate (eArg.getD ""))),
     sArg.getD "", eArg.getD "")
  else (none, none, "Beginning", "Now")

/-- The aggregate result object (`GitStats` of the source, minus the
workspace path, which is fixed by the environment). -/
structure GitStats where
  branches : List (String × BranchEntry)
  authorNames : List (String × String)
  addedLines : List (String × JsNum)
  removedLines : List (String × JsNum)
  netLines : List (String × JsNum)
  commitsByDate : List (String × List (String × Nat))
  dateList : List String
  startDate : String
  endDate : String
  branch : String
deriving DecidableEq, Repr

/-- The facade after branch resolution and validation (source lines
489–583): configure the range, run the history query, fold the commit
loop, fill the date axis (falling back to the sorted observed commit
dates), attach the catalog, and assemble the result. -/
def statsAfterValidate (env : GitEnv) (sArg eArg : Option String) (branchName : String)
    (tr : List (List String)) : Except String GitStats × List (List String) :=
  match computeRange sArg eArg with
  | (dateRange, dateListOpt, startDate0, endDate0) =>
    match env (logCmd dateRange branchName) with
    | .error m => (.error m, tr ++ [logCmd dateRange branchName])
    | .ok output =>
      let st := processLogOutput output
      let dse : List String × String × String :=
        match dateListOpt with
        | some dl => (dl, startDate0, endDate0)
        | none =>
          let dl := sortStrings (st.commitsByDate.map Prod.fst)
          if 0 < dl.length then (dl, dl.getD 0 "", dl.getD (dl.length - 1) "")
          else (dl, startDate0, endDate0)
      match getBranches env with
      | (branches, trB) =>
        (.ok { branches := branches, authorNames := st.authorNames,
               addedLines := st.addedLines, removedLines := st.removedLines,
               netLines := st.netLines, commitsByDate := st.commitsByDate,
               dateList := dse.1, startDate := dse.2.1, endDate := dse.2.2,
               branch := branchName },
         tr ++ [logCmd dateRange branchName] ++ trB)

/-- `getGitStats(workspacePath, startDateArg, endDateArg, branchName)`:
resolve the branch (falling back to the current one), validate it when
it is not a remote-style reference (throwing when the local branch does
not exist), then run the query pipeline.  Returns the result or error
together with the list of issued git commands. -/
def getGitStats (env : GitEnv) (startDateArg endDateArg branchArg : Option String) :
    Except String GitStats × List (List String) :=
  let resolved : Except String String × List (List String) :=
    if jsTruthy branchArg then (.ok (branchArg.getD ""), [])
    else
      match env revParseCmd with
      | .ok o => (.ok (jsTrim o), [revParseCmd])
      | .error m => (.error m, [revParseCmd])
  match resolved with
  | (.error m, tr) => (.error m, tr)
  | (.ok branchName, tr0) =>
    if jsIncludes branchName "/" = false then
      match env (showRefCmd branchName) with
      | .error _ =>
        (.error ("Branch '" ++ branchName ++ "' does not exist."),
         tr0 ++ [showRefCmd branchName])
      | .ok _ => statsAfterValidate env startDateArg endDateArg branchName
          (tr0 ++ [showRefCmd branchName])
    else statsAfterValidate env startDateArg endDateArg branchName tr0


/-! ## Association-list lemmas -/

theorem aget_aset_self {α : Type} (l : List (String × α)) (k : String) (v : α) :
    aget (aset l k v) k = some v := by
  induction l with
  | nil => simp [aget, aset]
  | cons hd tl ih =>
    obtain ⟨k', v'⟩ := hd
    by_cases h : k' = k <;> simp [aget, aset, h, ih]

theorem aget_aset_ne {α : Type} (l : List (String × α)) (k k' : String) (v : α)
    (h : k' ≠ k) : aget (aset l k v) k' = aget l k' := by
  have hks : ¬ k = k' := fun hh => h hh.symm
  induction l with
  | nil => simp [aget, aset, hks]
  | cons hd tl ih =>
    obtain ⟨k0, v0⟩ := hd
    by_cases h0 : k0 = k
    · subst h0
      simp [aget, aset, hks]
    · by_cases h1 : k0 = k'
      · subst h1
        simp [aget, aset, h0]
      · simp [aget, aset, h0, h1, ih]

theorem aget_aset_isSome {α : Type} (l : List (String × α)) (k k' : String) (v : α) :
    (aget (aset l k v) k').isSome ↔ k' = k ∨ (aget l k').isSome := by
  by_cases h : k' = k
  · subst h; simp [aget_aset_self]
  · simp [aget_aset_ne l k k' v h, h]

theorem processDeltaLine_authorNames (email : String) (st : LogStats) (line : String) :
    (processDeltaLine email st line).authorNames = st.authorNames := by
  simp only [processDeltaLine]
  split <;> rfl

theorem processDeltaLine_commitsByDate (email : String) (st : LogStats) (line : String) :
    (processDeltaLine email st line).commitsByDate = st.commitsByDate := by
  simp only [processDeltaLine]
  split <;> rfl

/-- Key-coverage invariant. -/
def statsCovered (st : LogStats) : Prop :=
  (∀ e, (aget st.addedLines e).isSome → (aget st.authorNames e).isSome) ∧
  (∀ e, (aget st.removedLines e).isSome → (aget st.authorNames e).isSome) ∧
  (∀ e, (aget st.netLines e).isSome → (aget st.authorNames e).isSome) ∧
  (∀ d inner e, aget st.commitsByDate d = some inner →
    (aget inner e).isSome → (aget st.authorNames e).isSome)

theorem statsCovered_initial : statsCovered initialStats := by
  refine ⟨?_, ?_, ?_, ?_⟩ <;> simp [initialStats, aget]

theorem statsCovered_processDeltaLine (email : String) (st : LogStats) (line : String)
    (hst : statsCovered st) (hem : (aget st.authorNames email).isSome) :
    statsCovered (processDeltaLine email st line) := by
  obtain ⟨ha, hr, hn, hc⟩ := hst
  simp only [processDeltaLine]
  split
  · refine ⟨?_, ?_, ?_, hc⟩ <;>
      intro e he <;>
      rw [aget_aset_isSome] at he <;>
      rcases he with rfl | he
    · exact hem
    · exact ha e he
    · exact hem
    · exact hr e he
    · exact hem
    · exact hn e he
  · exact ⟨ha, hr, hn, hc⟩

theorem statsCovered_deltaFold (email : String) (rest : List String) (st : LogStats)
    (hst : statsCovered st) (hem : (aget st.authorNames email).isSome) :
    statsCovered (rest.foldl (processDeltaLine email) st) := by
  induction rest generalizing st with
  | nil => exact hst
  | cons l ls ih =>
    exact ih _ (statsCovered_processDeltaLine email st l hst hem)
      (by rw [processDeltaLine_authorNames]; exact hem)

theorem statsCovered_accept (st : LogStats) (name email date : String) (rest : List String)
    (hst : statsCovered st) :
    statsCovered (rest.foldl (processDeltaLine email)
      { st with authorNames := aset st.authorNames email name,
                commitsByDate := bumpCommit st.commitsByDate date email }) := by
  obtain ⟨ha, hr, hn, hc⟩ := hst
  apply statsCovered_deltaFold
  · refine ⟨?_, ?_, ?_, ?_⟩
    · intro e he
      exact (aget_aset_isSome _ _ _ _).2 (Or.inr (ha e he))
    · intro e he
      exact (aget_aset_isSome _ _ _ _).2 (Or.inr (hr e he))
    · intro e he
      exact (aget_aset_isSome _ _ _ _).2 (Or.inr (hn e he))
    · intro d inner e hd hin
      rw [aget_aset_isSome]
      simp only [bumpCommit] at hd
      by_cases hdd : d = date
      · subst hdd
        rw [aget_aset_self] at hd
        cases hd
        rw [aget_aset_isSome] at hin
        rcases hin with rfl | hin
        · exact Or.inl rfl
        · cases hcd : aget st.commitsByDate d with
          | none => rw [hcd] at hin; simp [aget] at hin
          | some i0 => rw [hcd] at hin; exact Or.inr (hc d i0 e hcd hin)
      · rw [aget_aset_ne _ _ _ _ hdd] at hd
        exact Or.inr (hc d inner e hd hin)
  · simp [aget_aset_self]

theorem statsCovered_processCommit (st : LogStats) (c : String)
    (hst : statsCovered st) : statsCovered (processCommit st c) := by
  simp only [processCommit]
  split
  · exact hst
  · split
    · exact hst
    · exact statsCovered_accept st _ _ _ _ hst

theorem statsCovered_processLog (output : String) :
    statsCovered (processLogOutput output) := by
  unfold processLogOutput
  generalize jsSplit "--SPLIT--" output = commits
  have h : statsCovered initialStats := statsCovered_initial
  generalize hst0 : initialStats = st0 at h
  clear hst0
  induction commits generalizing st0 with
  | nil => exact h
  | cons c cs ih => exact ih _ (statsCovered_processCommit st0 c h)

theorem statsAfterValidate_ok {env : GitEnv} {sArg eArg : Option String} {b : String}
    {tr : List (List String)} {res : GitStats} {tr' : List (List String)}
    (h : statsAfterValidate env sArg eArg b tr = (.ok res, tr')) :
    res.branch = b ∧
    ∃ dr output, env (logCmd dr b) = .ok output ∧ logCmd dr b ∈ tr' ∧
      res.authorNames = (processLogOutput output).authorNames ∧
      res.addedLines = (processLogOutput output).addedLines ∧
      res.removedLines = (processLogOutput output).removedLines ∧
      res.netLines = (processLogOutput output).netLines ∧
      res.commitsByDate = (processLogOutput output).commitsByDate := by
  unfold statsAfterValidate at h
  rcases hc : computeRange sArg eArg with ⟨dr, dlo, s0, e0⟩
  rw [hc] at h
  dsimp only at h
  cases hlog : env (logCmd dr b) with
  | error m =>
    rw [hlog] at h
    exact absurd (congrArg Prod.fst h) (by simp)
  | ok output =>
    rw [hlog] at h
    rcases hgb : getBranches env with ⟨brs, trB⟩
    rw [hgb] at h
    rw [Prod.mk.injEq] at h
    obtain ⟨h1, h2⟩ := h
    injection h1 with h3
    subst h3
    subst h2
    exact ⟨rfl, dr, output, hlog, by simp, rfl, rfl, rfl, rfl, rfl⟩

theorem logCmd_head (dr : Option String) (b : String) :
    (logCmd dr b).getD 0 "" = "log" := by
  unfold logCmd
  cases dr
  · rfl
  · dsimp only
    split <;> split <;> rfl

theorem getGitStats_ok {env : GitEnv} {sArg eArg bArg : Option String}
    {res : GitStats} {tr : List (List String)}
    (h : getGitStats env sArg eArg bArg = (.ok res, tr)) :
    ∃ dr output, env (logCmd dr res.branch) = .ok output ∧ logCmd dr res.branch ∈ tr ∧
      res.authorNames = (processLogOutput output).authorNames ∧
      res.addedLines = (processLogOutput output).addedLines ∧
      res.removedLines = (processLogOutput output).removedLines ∧
      res.netLines = (processLogOutput output).netLines ∧
      res.commitsByDate = (processLogOutput output).commitsByDate := by
  unfold getGitStats at h
  dsimp only at h
  split at h
  · exact absurd (congrArg Prod.fst h) (by simp)
  · rename_i branchName tr0 heq
    split at h
    · split at h
      · exact absurd (congrArg Prod.fst h) (by simp)
      · obtain ⟨hb, rest⟩ := statsAfterValidate_ok h
        rw [hb]
        exact rest
    · obtain ⟨hb, rest⟩ := statsAfterValidate_ok h
      rw [hb]
      exact rest

/-! ## Claim C1: net = added - removed -/

/-- The three line-count entries for one email are consistent: either all
three absent, or all three integers with `net = added - removed`. -/
def tripleOk (x y z : Option JsNum) : Prop :=
  (∃ a r, x = some (.int a) ∧ y = some (.int r) ∧ z = some (.int (a - r))) ∨
  (x = none ∧ y = none ∧ z = none)

/-- Pointwise consistency of the three maps. -/
def netConsistent (ad rm nt : List (String × JsNum)) : Prop :=
  ∀ e, tripleOk (aget ad e) (aget rm e) (aget nt e)

/-- A delta line whose two numeric fields both convert to integers
(each is the `-` placeholder or parses). -/
def cleanDeltaLine (line : String) : Prop :=
  (jsSplit "\t" (jsTrim line)).length = 3 →
    (∃ a, fieldNum ((jsSplit "\t" (jsTrim line)).getD 0 "") = .int a) ∧
    (∃ r, fieldNum ((jsSplit "\t" (jsTrim line)).getD 1 "") = .int r)

/-- A log output all of whose delta lines are clean. -/
def cleanOutput (output : String) : Prop :=
  ∀ c ∈ jsSplit "--SPLIT--" output,
    ∀ line ∈ (jsSplit "\n" (jsTrim c)).drop 2, cleanDeltaLine line

theorem tripleOk_orZero {x y z : Option JsNum} (h : tripleOk x y z) :
    ∃ a r, jsOrZero x = .int a ∧ jsOrZero y = .int r ∧ jsOrZero z = .int (a - r) := by
  rcases h with ⟨a, r, hx, hy, hz⟩ | ⟨hx, hy, hz⟩
  · exact ⟨a, r, by rw [hx]; rfl, by rw [hy]; rfl, by rw [hz]; rfl⟩
  · exact ⟨0, 0, by rw [hx]; rfl, by rw [hy]; rfl, by rw [hz]; rfl⟩

theorem netConsistent_processDeltaLine (email : String) (st : LogStats) (line : String)
    (hcl : cleanDeltaLine line)
    (h : netConsistent st.addedLines st.removedLines st.netLines) :
    netConsistent (processDeltaLine email st line).addedLines
      (processDeltaLine email st line).removedLines
      (processDeltaLine email st line).netLines := by
  simp only [processDeltaLine]
  split
  · rename_i hlen
    obtain ⟨⟨a', ha'⟩, ⟨r', hr'⟩⟩ := hcl hlen
    intro e
    by_cases he : e = email
    · subst he
      obtain ⟨a0, r0, h1, h2, h3⟩ := tripleOk_orZero (h e)
      rw [aget_aset_self, aget_aset_self, aget_aset_self, h1, h2, h3, ha', hr']
      refine Or.inl ⟨a0 + a', r0 + r', rfl, rfl, ?_⟩
      have harith : JsNum.add (.int (a0 - r0)) (JsNum.sub (.int a') (.int r')) =
          JsNum.int (a0 + a' - (r0 + r')) := by
        simp only [JsNum.add, JsNum.sub]
        congr 1
        ring
      rw [harith]
    · rw [aget_aset_ne _ _ _ _ he, aget_aset_ne _ _ _ _ he, aget_aset_ne _ _ _ _ he]
      exact h e
  · exact h

theorem netConsistent_deltaFold (email : String) (rest : List String) (st : LogStats)
    (hcl : ∀ l ∈ rest, cleanDeltaLine l)
    (h : netConsistent st.addedLines st.removedLines st.netLines) :
    netConsistent (rest.foldl (processDeltaLine email) st).addedLines
      (rest.foldl (processDeltaLine email) st).removedLines
      (rest.foldl (processDeltaLine email) st).netLines := by
  induction rest generalizing st with
  | nil => exact h
  | cons l ls ih =>
    exact ih _ (fun x hx => hcl x (List.mem_cons_of_mem l hx))
      (netConsistent_processDeltaLine email st l (hcl l (List.mem_cons_self l ls)) h)

theorem netConsistent_processCommit (st : LogStats) (c : String)
    (hcl : ∀ line ∈ (jsSplit "\n" (jsTrim c)).drop 2, cleanDeltaLine line)
    (h : netConsistent st.addedLines st.removedLines st.netLines) :
    netConsistent (processCommit st c).addedLines
      (processCommit st c).removedLines
      (processCommit st c).netLines := by
  simp only [processCommit]
  split
  · exact h
  · split
    · exact h
    · exact netConsistent_deltaFold _ _ _ hcl h

theorem netConsistent_processLog (output : String) (h : cleanOutput output) :
    netConsistent (processLogOutput output).addedLines
      (processLogOutput output).removedLines
      (processLogOutput output).netLines := by
  unfold processLogOutput
  unfold cleanOutput at h
  generalize hcs : jsSplit "--SPLIT--" output = commits
  rw [hcs] at h
  clear hcs
  have h0 : netConsistent initialStats.addedLines initialStats.removedLines
      initialStats.netLines := by
    intro e
    exact Or.inr ⟨rfl, rfl, rfl⟩
  generalize initialStats = st0 at h0 ⊢
  induction commits generalizing st0 with
  | nil => exact h0
  | cons c cs ih =>
    exact ih (fun x hx => h x (List.mem_cons_of_mem c hx)) (processCommit st0 c)
      (netConsistent_processCommit st0 c (h c (List.mem_cons_self c cs)) h0)

/-! ## Decidable cleanliness check (used to discharge witnesses) -/

/-- Is this number an integer (not `NaN`)? -/
def JsNum.isInt : JsNum → Bool
  | .int _ => true
  | .nan => false

theorem isInt_exists {x : JsNum} (h : x.isInt = true) : ∃ n, x = .int n := by
  cases x with
  | nan => cases h
  | int n => exact ⟨n, rfl⟩

/-- Boolean version of `cleanOutput`. -/
def cleanOutputB (output : String) : Bool :=
  (jsSplit "--SPLIT--" output).all fun c =>
    ((jsSplit "\n" (jsTrim c)).drop 2).all fun line =>
      if (jsSplit "\t" (jsTrim line)).length = 3 then
        (fieldNum ((jsSplit "\t" (jsTrim line)).getD 0 "")).isInt &&
        (fieldNum ((jsSplit "\t" (jsTrim line)).getD 1 "")).isInt
      else true

theorem cleanOutput_of_b {output : String} (h : cleanOutputB output = true) :
    cleanOutput output := by
  intro c hc line hl
  unfold cleanOutputB at h
  rw [List.all_eq_true] at h
  have h1 := h c hc
  rw [List.all_eq_true] at h1
  have h2 := h1 line hl
  intro hlen
  rw [if_pos hlen, Bool.and_eq_true] at h2
  exact ⟨isInt_exists h2.1, isInt_exists h2.2⟩

/-! ## Concrete environments used by witnesses and counterexamples -/

/-- A repository whose log output is well formed. -/
def envA : GitEnv := fun args =>
  if args = showRefCmd "main" then .ok ""
  else if args = logCmd none "main" then
    .ok "--SPLIT--\n2024-01-01\nAlice <a@x>\n10\t2\tf.ts"
  else .error "unexpected command"

/-- A repository whose log output carries one garbage numstat field
(`xx`) followed by a well-formed delta line for the same author. -/
def envC1 : GitEnv := fun args =>
  if args = showRefCmd "main" then .ok ""
  else if args = logCmd none "main" then
    .ok "--SPLIT--\n2024-01-01\nAlice <a@x>\nxx\t2\tf\n3\t1\tg"
  else .error "unexpected command"

/-- A repository whose single commit touches no files. -/
def envC10 : GitEnv := fun args =>
  if args = showRefCmd "main" then .ok ""
  else if args = logCmd none "main" then
    .ok "--SPLIT--\n2024-01-01\nAlice <a@x>"
  else .error "unexpected command"

/-! ## Claim theorems: the aggregation maps -/

/-- Claim C2: in every result returned by `getGitStats`, every email key
of `addedLines`, `removedLines`, `netLines`, or an inner map of
`commitsByDate` is also a key of `authorNames`. -/
theorem authorNames_covers_all_keys (env : GitEnv) (sArg eArg bArg : Option String)
    (res : GitStats) (tr : List (List String))
    (h : getGitStats env sArg eArg bArg = (.ok res, tr)) :
    (∀ e, (aget res.addedLines e).isSome → (aget res.authorNames e).isSome) ∧
    (∀ e, (aget res.removedLines e).isSome → (aget res.authorNames e).isSome) ∧
    (∀ e, (aget res.netLines e).isSome → (aget res.authorNames e).isSome) ∧
    (∀ d inner e, aget res.commitsByDate d = some inner → (aget inner e).isSome →
      (aget res.authorNames e).isSome) := by
  obtain ⟨dr, output, _, _, hAN, hA, hR, hN, hC⟩ := getGitStats_ok h
  rw [hAN, hA, hR, hN, hC]
  exact statsCovered_processLog output

/-- Witness for C2 at a concrete repository. -/
theorem authorNames_covers_all_keys_witness :
    ∃ res tr, getGitStats envA none none (some "main") = (.ok res, tr) ∧
      ((∀ e, (aget res.addedLines e).isSome → (aget res.authorNames e).isSome) ∧
       (∀ e, (aget res.removedLines e).isSome → (aget res.authorNames e).isSome) ∧
       (∀ e, (aget res.netLines e).isSome → (aget res.authorNames e).isSome) ∧
       (∀ d inner e, aget res.commitsByDate d = some inner → (aget inner e).isSome →
         (aget res.authorNames e).isSome)) :=
  ⟨_, _, rfl, authorNames_covers_all_keys envA none none (some "main") _ _ rfl⟩

/-- Claim C1 (amended): in every result of `getGitStats` whose history
output has only clean delta lines (each numeric field the `-`
placeholder or an integer numeral), `netLines[e]` equals
`addedLines[e] - removedLines[e]` for every key `e` of `netLines`.  (As
stated, over all inputs, the claim is false: a garbage field yields
`NaN`, `NaN` is falsy, and the three maps drift apart — see the
counterexample.) -/
theorem netLines_eq_sub_of_clean (env : GitEnv) (sArg eArg bArg : Option String)
    (res : GitStats) (tr : List (List String))
    (h : getGitStats env sArg eArg bArg = (.ok res, tr))
    (hclean : ∀ cmd ∈ tr, cmd.getD 0 "" = "log" → ∀ o, env cmd = .ok o → cleanOutput o) :
    ∀ e n, aget res.netLines e = some n →
      ∃ a r, aget res.addedLines e = some (.int a) ∧
        aget res.removedLines e = some (.int r) ∧ n = .int (a - r) := by
  obtain ⟨dr, output, hok, hmem, _, hA, hR, hN, _⟩ := getGitStats_ok h
  have hco := hclean _ hmem (logCmd_head dr res.branch) output hok
  have hnc := netConsistent_processLog output hco
  intro e n hn
  rw [hN] at hn
  rcases hnc e with ⟨a, r, ha, hr, hz⟩ | ⟨_, _, hz⟩
  · rw [hz] at hn
    cases hn
    exact ⟨a, r, by rw [hA]; exact ha, by rw [hR]; exact hr, rfl⟩
  · rw [hz] at hn
    cases hn

/-- Counterexample to C1 as stated: with a garbage numstat field in the
log output, `getGitStats` returns `netLines = 2` but
`addedLines - removedLines = 3 - 3 = 0`. -/
theorem netLines_mismatch_on_nan_input :
    ∃ res tr, getGitStats envC1 none none (some "main") = (.ok res, tr) ∧
      aget res.addedLines "a@x" = some (.int 3) ∧
      aget res.removedLines "a@x" = some (.int 3) ∧
      aget res.netLines "a@x" = some (.int 2) ∧
      JsNum.sub (.int 3) (.int 3) ≠ .int 2 :=
  ⟨_, _, rfl, rfl, rfl, rfl, by decide⟩

/-- The result `getGitStats` produces against `envA`. -/
def resA : GitStats :=
  { branches := [], authorNames := [("a@x", "Alice")],
    addedLines := [("a@x", .int 10)], removedLines := [("a@x", .int 2)],
    netLines := [("a@x", .int 8)], commitsByDate := [("2024-01-01", [("a@x", 1)])],
    dateList := ["2024-01-01"], startDate := "2024-01-01", endDate := "2024-01-01",
    branch := "main" }

/-- The commands `getGitStats` issues against `envA`. -/
def trA : List (List String) := [showRefCmd "main", logCmd none "main", branchCmd]

/-- Witness for the amended C1 at a concrete repository. -/
theorem netLines_eq_sub_of_clean_witness :
    ∃ res tr, getGitStats envA none none (some "main") = (.ok res, tr) ∧
      (∀ e n, aget res.netLines e = some n →
        ∃ a r, aget res.addedLines e = some (.int a) ∧
          aget res.removedLines e = some (.int r) ∧ n = .int (a - r)) := by
  refine ⟨resA, trA, rfl,
    netLines_eq_sub_of_clean envA none none (some "main") resA trA rfl ?_⟩
  intro cmd hmem hhead o ho
  simp only [trA, List.mem_cons, List.not_mem_nil, or_false] at hmem
  rcases hmem with rfl | rfl | rfl
  · exact absurd hhead (by decide)
  · have hv : envA (logCmd none "main") =
        .ok "--SPLIT--\n2024-01-01\nAlice <a@x>\n10\t2\tf.ts" := rfl
    rw [hv] at ho
    injection ho with hor
    subst hor
    exact cleanOutput_of_b rfl
  · exact absurd hhead (by decide)

/-- Claim C4 (code bug): the source's comment says invalid-format lines
are ignored, but `parseInt` returns `NaN` instead of throwing, so the
`catch` never runs: a garbage field is not skipped — it wipes the
accumulated added count to `NaN` and still adds its removed count. -/
theorem malformed_delta_line_poisons_counters :
    (processLogOutput "--SPLIT--\n2024-01-01\nAlice <a@x>\n10\t2\ta.ts\nxx\t3\tb.ts").addedLines =
      [("a@x", JsNum.nan)] ∧
    (processLogOutput "--SPLIT--\n2024-01-01\nAlice <a@x>\n10\t2\ta.ts\nxx\t3\tb.ts").removedLines =
      [("a@x", JsNum.int 5)] ∧
    (processLogOutput "--SPLIT--\n2024-01-01\nAlice <a@x>\n10\t2\ta.ts\nxx\t3\tb.ts").netLines =
      [("a@x", JsNum.nan)] :=
  ⟨rfl, rfl, rfl⟩

/-- Claim C6: an entry with fewer than two lines, or whose second line
fails the `Name <email>` pattern, contributes nothing to any map, and no
error is raised (the processing function is total and returns the state
unchanged). -/
theorem unmatched_author_entry_dropped (st : LogStats) (c : String)
    (h : (jsSplit "\n" (jsTrim c)).length < 2 ∨
      matchAuthor (jsTrim ((jsSplit "\n" (jsTrim c)).getD 1 "")) = none) :
    processCommit st c = st := by
  simp only [processCommit]
  rcases h with h | h
  · rw [if_pos h]
  · split
    · rfl
    · rw [h]

/-- Witness for C6: a fragment whose second line has no email. -/
theorem unmatched_author_entry_dropped_witness :
    matchAuthor (jsTrim ((jsSplit "\n"
      (jsTrim "2024-01-01\nAlice NoEmail\n10\t2\tf.ts")).getD 1 "")) = none ∧
    processCommit initialStats "2024-01-01\nAlice NoEmail\n10\t2\tf.ts" = initialStats :=
  ⟨rfl, unmatched_author_entry_dropped initialStats
    "2024-01-01\nAlice NoEmail\n10\t2\tf.ts" (Or.inr rfl)⟩

theorem processDeltaLine_id (email : String) (st : LogStats) (line : String)
    (h : (jsSplit "\t" (jsTrim line)).length ≠ 3) :
    processDeltaLine email st line = st := by
  simp only [processDeltaLine]
  rw [if_neg h]

theorem deltaFold_id (email : String) (rest : List String) (st : LogStats)
    (h : ∀ l ∈ rest, (jsSplit "\t" (jsTrim l)).length ≠ 3) :
    rest.foldl (processDeltaLine email) st = st := by
  induction rest with
  | nil => rfl
  | cons l ls ih =>
    rw [List.foldl_cons, processDeltaLine_id email st l (h l (List.mem_cons_self l ls))]
    exact ih fun x hx => h x (List.mem_cons_of_mem l hx)

/-- Claim C10 (amended: "no valid 3-field delta line" must read "no line
with exactly 3 tab-separated fields", since a 3-field line with garbage
fields does add a `NaN` key): an entry with a matching author line and
no 3-field line still records the author and counts the commit while
leaving the three line-count maps unchanged; consequently the converse
of the C2 key-inclusion does not hold, exhibited on a concrete
repository whose commit touches no files. -/
theorem entry_without_deltas_counts_commit :
    (∀ (st : LogStats) (c name email : String),
      ¬ (jsSplit "\n" (jsTrim c)).length < 2 →
      matchAuthor (jsTrim ((jsSplit "\n" (jsTrim c)).getD 1 "")) = some (name, email) →
      (∀ line ∈ (jsSplit "\n" (jsTrim c)).drop 2,
        (jsSplit "\t" (jsTrim line)).length ≠ 3) →
      (processCommit st c).addedLines = st.addedLines ∧
      (processCommit st c).removedLines = st.removedLines ∧
      (processCommit st c).netLines = st.netLines ∧
      (processCommit st c).authorNames = aset st.authorNames email name ∧
      (processCommit st c).commitsByDate =
        bumpCommit st.commitsByDate (jsTrim ((jsSplit "\n" (jsTrim c)).getD 0 "")) email) ∧
    (∃ res tr, getGitStats envC10 none none (some "main") = (.ok res, tr) ∧
      (aget res.authorNames "a@x").isSome ∧
      (∃ inner, aget res.commitsByDate "2024-01-01" = some inner ∧
        (aget inner "a@x").isSome) ∧
      aget res.addedLines "a@x" = none ∧
      aget res.removedLines "a@x" = none ∧
      aget res.netLines "a@x" = none) := by
  constructor
  · intro st c name email hlen hma hnd
    simp only [processCommit]
    rw [if_neg hlen, hma]
    dsimp only
    rw [deltaFold_id email _ _ hnd]
    exact ⟨rfl, rfl, rfl, rfl, rfl⟩
  · exact ⟨_, _, rfl, rfl, ⟨[("a@x", 1)], rfl, rfl⟩, rfl, rfl, rfl⟩

/-- Counterexample to C10 as stated: an entry whose only delta line has
3 fields but garbage numbers (so no *valid* 3-field delta line) does add
keys to the line-count maps. -/
theorem garbage_delta_line_adds_key :
    (processCommit initialStats "2024-01-01\nAlice <a@x>\nxx\tyy\tf.ts").addedLines =
      [("a@x", JsNum.nan)] ∧
    (processCommit initialStats "2024-01-01\nAlice <a@x>\nxx\tyy\tf.ts").netLines =
      [("a@x", JsNum.nan)] ∧
    initialStats.addedLines = [] :=
  ⟨rfl, rfl, rfl⟩

/-- Witness for C10 at a concrete commit entry touching no files. -/
theorem entry_without_deltas_counts_commit_witness :
    ¬ (jsSplit "\n" (jsTrim "2024-01-01\nAlice <a@x>")).length < 2 ∧
    (processCommit initialStats "2024-01-01\nAlice <a@x>").addedLines =
      initialStats.addedLines ∧
    (processCommit initialStats "2024-01-01\nAlice <a@x>").authorNames =
      aset initialStats.authorNames "a@x" "Alice" :=
  ⟨by decide,
   (entry_without_deltas_counts_commit.1 initialStats "2024-01-01\nAlice <a@x>"
     "Alice" "a@x" (by decide) rfl (by intro line hl; cases hl)).1,
   (entry_without_deltas_counts_commit.1 initialStats "2024-01-01\nAlice <a@x>"
     "Alice" "a@x" (by decide) rfl (by intro line hl; cases hl)).2.2.2.1⟩

/-- A repository with local branch `main`, remote branch `origin/main`,
and a symbolic remote HEAD pointer line. -/
def envC8 : GitEnv := fun args =>
  if args = branchCmd then .ok "* main\n"
  else if args = branchRCmd then .ok "  origin/HEAD -> origin/main\n  origin/main\n"
  else .error "unexpected command"


/-! ## Substring facts for the `HEAD ->` filter -/

theorem containsSub_eq_true_iff (sep : List Char) (l : List Char) :
    containsSub sep l = true ↔ sep <:+: l := by
  induction l with
  | nil =>
    simp only [containsSub, List.isEmpty_iff]
    constructor
    · rintro rfl
      exact List.infix_refl []
    · intro h
      obtain ⟨s, t, he⟩ := h
      cases s <;> cases sep <;> simp_all
  | cons c rest ih =>
    simp only [containsSub, Bool.or_eq_true, ih]
    rw [ List.isPrefixOf_iff_prefix]
    constructor
    · rintro (h | h)
      · exact h.isInfix
      · obtain ⟨s, t, he⟩ := h
        exact ⟨c :: s, t, by rw [List.cons_append, List.cons_append, he]⟩
    · intro h
      obtain ⟨s, t, he⟩ := h
      cases s with
      | nil =>
        left
        exact ⟨t, by simpa using he⟩
      | cons x xs =>
        right
        injection he with h1 h2
        exact ⟨xs, t, h2⟩

theorem isInfixRev {l₁ l₂ : List Char} (h : l₁ <:+: l₂) :
    l₁.reverse <:+: l₂.reverse := by
  obtain ⟨s, t, rfl⟩ := h
  exact ⟨t.reverse, s.reverse, by simp⟩

theorem isInfixDropWhile (p : Char → Bool) {pat l : List Char} (h : pat <:+: l)
    (hhd : ∃ c cs, pat = c :: cs ∧ p c = false) : pat <:+: l.dropWhile p := by
  obtain ⟨s, t, rfl⟩ := h
  induction s with
  | nil =>
    obtain ⟨c, cs, rfl, hc⟩ := hhd
    rw [List.nil_append, List.cons_append, List.dropWhile_cons, hc]
    exact ⟨[], t, by simp⟩
  | cons a s ih =>
    have he : a :: s ++ pat ++ t = a :: (s ++ pat ++ t) := by simp
    rw [he, List.dropWhile_cons]
    split
    · exact ih
    · exact ⟨a :: s, t, by simp⟩

theorem isInfixTrimChars {pat l : List Char} (h : pat <:+: l)
    (hhd : ∃ c cs, pat = c :: cs ∧ isWsChar c = false)
    (hlast : ∃ c cs, pat.reverse = c :: cs ∧ isWsChar c = false) :
    pat <:+: trimChars l := by
  unfold trimChars
  have h1 : pat <:+: l.dropWhile isWsChar := isInfixDropWhile isWsChar h hhd
  have h2 : pat.reverse <:+: (l.dropWhile isWsChar).reverse := isInfixRev h1
  have h3 : pat.reverse <:+: (l.dropWhile isWsChar).reverse.dropWhile isWsChar :=
    isInfixDropWhile isWsChar h2 hlast
  have h4 := isInfixRev h3
  rwa [List.reverse_reverse] at h4

/-! ## Claim theorems: branch catalog and branch validation -/

/-- Claim C8: with local branch `main` and remote `origin/main` (plus a
symbolic HEAD pointer line), the catalog holds a `main` local entry
referencing `main` and a `main (origin)` remote entry referencing
`origin/main`; and any remote listing line containing `HEAD ->`
produces no catalog entry at all. -/
theorem branch_catalog_scenario :
    (getBranches envC8 =
      ([("main", ⟨.localBranch, "main"⟩),
        ("main (origin)", ⟨.remoteBranch, "origin/main"⟩)],
       [branchCmd, branchRCmd])) ∧
    (∀ branches line, ("HEAD ->".data <:+: line.data) →
      processRemoteLine branches line = branches) := by
  constructor
  · rfl
  · intro branches line h
    have hin : jsIncludes (jsTrim line) "HEAD ->" = true := by
      unfold jsIncludes jsTrim
      rw [containsSub_eq_true_iff]
      exact isInfixTrimChars h ⟨'H', _, rfl, rfl⟩ ⟨'>', _, rfl, rfl⟩
    simp only [processRemoteLine]
    rw [if_pos hin]

/-- Witness for C8's universal part at a concrete HEAD pointer line. -/
theorem branch_catalog_scenario_witness :
    ("HEAD ->".data <:+: "  origin/HEAD -> origin/main".data) ∧
    processRemoteLine [("x", ⟨.localBranch, "x"⟩)] "  origin/HEAD -> origin/main" =
      [("x", ⟨.localBranch, "x"⟩)] :=
  ⟨⟨"  origin/".data, " origin/main".data, by decide⟩,
   branch_catalog_scenario.2 [("x", ⟨.localBranch, "x"⟩)] "  origin/HEAD -> origin/main"
     ⟨"  origin/".data, " origin/main".data, by decide⟩⟩

/-- A runner for which every command fails. -/
def envC9 : GitEnv := fun _ => .error "boom"

/-- A runner whose two listing queries both return empty text. -/
def envEmptyB : GitEnv := fun args =>
  if args = branchCmd then .ok ""
  else if args = branchRCmd then .ok ""
  else .error "unexpected command"

/-- Claim C9 (amended): `getBranches` never propagates a failure — it
swallows a failing listing query and returns an empty catalog (without
issuing the remote query when the local one already failed), and it also
returns an empty catalog when both queries succeed with empty output. -/
theorem getBranches_swallows_failures :
    (∀ (env : GitEnv) (m : String), env branchCmd = .error m →
      getBranches env = ([], [branchCmd])) ∧
    (∀ (env : GitEnv) (lo m : String), env branchCmd = .ok lo →
      env branchRCmd = .error m → getBranches env = ([], [branchCmd, branchRCmd])) ∧
    (∀ env : GitEnv, env branchCmd = .ok "" → env branchRCmd = .ok "" →
      (getBranches env).1 = []) := by
  refine ⟨?_, ?_, ?_⟩
  · intro env m h
    unfold getBranches
    rw [h]
  · intro env lo m h1 h2
    unfold getBranches
    rw [h1, h2]
  · intro env h1 h2
    unfold getBranches
    rw [h1, h2]
    rfl

/-- Counterexample to C9 as stated: the local listing fails, yet
`getBranches` returns an ordinary empty catalog instead of propagating
the failure. -/
theorem getBranches_failure_yields_empty_catalog :
    envC9 branchCmd = .error "boom" ∧ getBranches envC9 = ([], [branchCmd]) :=
  ⟨rfl, rfl⟩

/-- Witness for the amended C9 at concrete runners. -/
theorem getBranches_swallows_failures_witness :
    getBranches envC9 = ([], [branchCmd]) ∧ (getBranches envEmptyB).1 = [] :=
  ⟨getBranches_swallows_failures.1 envC9 "boom" rfl,
   getBranches_swallows_failures.2.2 envEmptyB rfl rfl⟩

/-! ## Command traces -/

theorem getBranches_trace (env : GitEnv) (cmd : List String)
    (h : cmd ∈ (getBranches env).2) : cmd = branchCmd ∨ cmd = branchRCmd := by
  unfold getBranches at h
  cases h1 : env branchCmd with
  | error m =>
    rw [h1] at h
    simp at h
    exact Or.inl h
  | ok lo =>
    rw [h1] at h
    cases h2 : env branchRCmd with
    | error m =>
      rw [h2] at h
      simpa using h
    | ok ro =>
      rw [h2] at h
      simpa using h

theorem statsAfterValidate_trace (env : GitEnv) (sArg eArg : Option String) (b : String)
    (tr : List (List String)) (cmd : List String)
    (h : cmd ∈ (statsAfterValidate env sArg eArg b tr).2) :
    cmd ∈ tr ∨ cmd.getD 0 "" = "log" ∨ cmd = branchCmd ∨ cmd = branchRCmd := by
  unfold statsAfterValidate at h
  rcases hc : computeRange sArg eArg with ⟨dr, dlo, s0, e0⟩
  rw [hc] at h
  dsimp only at h
  cases hlog : env (logCmd dr b) with
  | error m =>
    rw [hlog] at h
    simp only [List.mem_append, List.mem_singleton] at h
    rcases h with h | h
    · exact Or.inl h
    · subst h
      exact Or.inr (Or.inl (logCmd_head dr b))
  | ok output =>
    rw [hlog] at h
    rcases hgb : getBranches env with ⟨brs, trB⟩
    rw [hgb] at h
    dsimp only at h
    simp only [List.mem_append, List.mem_singleton] at h
    rcases h with (h | h) | h
    · exact Or.inl h
    · subst h
      exact Or.inr (Or.inl (logCmd_head dr b))
    · have h2 := getBranches_trace env cmd (by rw [hgb]; exact h)
      exact Or.inr (Or.inr h2)

/-- Claim C7: a branch name without `/` that does not exist locally makes
`getGitStats` fail with the branch-not-found error after issuing only the
existence check — no history (`log`) query is ever issued; a branch
reference containing `/` skips the existence validation entirely (no
`show-ref` command is issued on that path). -/
theorem branch_validation_behavior :
    (∀ (env : GitEnv) (sArg eArg : Option String) (b m : String), b ≠ "" →
      jsIncludes b "/" = false → env (showRefCmd b) = .error m →
      getGitStats env sArg eArg (some b) =
        (.error ("Branch '" ++ b ++ "' does not exist."), [showRefCmd b]) ∧
      (∀ cmd ∈ (getGitStats env sArg eArg (some b)).2, cmd.getD 0 "" ≠ "log")) ∧
    (∀ (env : GitEnv) (sArg eArg : Option String) (b : String), b ≠ "" →
      jsIncludes b "/" = true →
      ∀ cmd ∈ (getGitStats env sArg eArg (some b)).2, cmd.getD 0 "" ≠ "show-ref") := by
  constructor
  · intro env sArg eArg b m hb hsl href
    have htr : jsTruthy (some b) = true := by simp [jsTruthy, hb]
    have hres : getGitStats env sArg eArg (some b) =
        (.error ("Branch '" ++ b ++ "' does not exist."), [showRefCmd b]) := by
      unfold getGitStats
      dsimp only
      rw [if_pos htr]
      dsimp only
      simp only [Option.getD_some]
      rw [if_pos hsl, href]
      rfl
    refine ⟨hres, ?_⟩
    intro cmd hcmd
    rw [hres] at hcmd
    simp at hcmd
    subst hcmd
    exact (by decide : ("show-ref" : String) ≠ "log")
  · intro env sArg eArg b hb hsl cmd hcmd
    have htr : jsTruthy (some b) = true := by simp [jsTruthy, hb]
    unfold getGitStats at hcmd
    dsimp only at hcmd
    rw [if_pos htr] at hcmd
    dsimp only at hcmd
    simp only [Option.getD_some] at hcmd
    rw [if_neg (by rw [hsl]; exact fun hh => absurd hh (by decide))] at hcmd
    have h2 := statsAfterValidate_trace env sArg eArg b [] cmd hcmd
    rcases h2 with h | h | h | h
    · cases h
    · rw [h]
      exact (by decide : ("log" : String) ≠ "show-ref")
    · subst h
      decide
    · subst h
      decide

/-- A runner for which every command fails (used for C7). -/
def envC7 : GitEnv := fun _ => .error "no such ref"

/-- Witness for C7 at concrete branch names. -/
theorem branch_validation_behavior_witness :
    getGitStats envC7 none none (some "feature") =
      (.error "Branch 'feature' does not exist.", [showRefCmd "feature"]) ∧
    (∀ cmd ∈ (getGitStats envC7 none none (some "origin/main")).2,
      cmd.getD 0 "" ≠ "show-ref") :=
  ⟨(branch_validation_behavior.1 envC7 none none "feature" "no such ref" (by decide)
      (by decide) rfl).1,
   branch_validation_behavior.2 envC7 none none "origin/main" (by decide) (by decide)⟩

/-! ## Calendar arithmetic -/

theorem daysInMonth_pos (y m : Nat) : 1 ≤ daysInMonth y m := by
  unfold daysInMonth
  split
  · split <;> omega
  · split <;> omega

theorem leapsBefore_succ (y : Nat) :
    leapsBefore (y + 1) = leapsBefore y + (if isLeap y then 1 else 0) := by
  unfold leapsBefore isLeap
  by_cases h4 : y % 4 = 0 <;> by_cases h100 : y % 100 = 0 <;> by_cases h400 : y % 400 = 0 <;>
    simp [h4, h100, h400] <;> omega

theorem dayNumber_nextDay {x : Ymd} (hv : ValidYmd x) :
    dayNumber (nextDay x) = dayNumber x + 1 := by
  obtain ⟨y, m, d⟩ := x
  obtain ⟨hm1, hm2, hd1, hd2⟩ := hv
  simp only at hm1 hm2 hd1 hd2
  unfold nextDay
  simp only
  split
  · unfold dayNumber
    simp only
    omega
  · rename_i hdlt
    split
    · rename_i hmlt
      obtain ⟨k, rfl⟩ : ∃ k, m = k + 1 := ⟨m - 1, by omega⟩
      have hd : d = daysInMonth y (k + 1) := by omega
      have hstep : daysThroughMonth y (k + 1) = daysThroughMonth y k + daysInMonth y (k + 1) := rfl
      unfold dayNumber
      simp only
      have h1 : k + 1 + 1 - 1 = k + 1 := by omega
      have h2 : k + 1 - 1 = k := by omega
      rw [h1, h2, hstep]
      omega
    · rename_i hmge
      have hm : m = 12 := by omega
      subst hm
      have hd : d = 31 := by
        have : daysInMonth y 12 = 31 := rfl
        omega
      subst hd
      unfold dayNumber
      norm_num
      have hstep : daysThroughMonth y 11 = 334 + (if isLeap y then 1 else 0) := by
        simp [daysThroughMonth, daysInMonth]
        split <;> omega
      have hz : daysThroughMonth (y + 1) 0 = 0 := rfl
      rw [leapsBefore_succ y, hstep, hz]
      split <;> omega

theorem validYmd_nextDay {x : Ymd} (hv : ValidYmd x) : ValidYmd (nextDay x) := by
  obtain ⟨y, m, d⟩ := x
  obtain ⟨hm1, hm2, hd1, hd2⟩ := hv
  simp only at hm1 hm2 hd1 hd2
  by_cases h1 : d < daysInMonth y m
  · have he : nextDay ⟨y, m, d⟩ = ⟨y, m, d + 1⟩ := by
      simp only [nextDay]
      rw [if_pos h1]
    rw [he]
    have hp := daysInMonth_pos y m
    refine ⟨?_, ?_, ?_, ?_⟩ <;> dsimp only <;> omega
  · by_cases h2 : m < 12
    · have he : nextDay ⟨y, m, d⟩ = ⟨y, m + 1, 1⟩ := by
        simp only [nextDay]
        rw [if_neg h1, if_pos h2]
      rw [he]
      have hp := daysInMonth_pos y (m + 1)
      refine ⟨?_, ?_, ?_, ?_⟩ <;> dsimp only <;> omega
    · have he : nextDay ⟨y, m, d⟩ = ⟨y + 1, 1, 1⟩ := by
        simp only [nextDay]
        rw [if_neg h1, if_neg h2]
      rw [he]
      have hp := daysInMonth_pos (y + 1) 1
      refine ⟨?_, ?_, ?_, ?_⟩ <;> dsimp only <;> omega

/-- Days in months 1..m never exceed the length of the year. -/
theorem daysThroughMonth_le (y : Nat) (m : Nat) (hm : m ≤ 12) :
    daysThroughMonth y m ≤ 334 + (if isLeap y then 1 else 0) + 31 := by
  have h12 : daysThroughMonth y 12 = 334 + (if isLeap y then 1 else 0) + 31 := by
    simp [daysThroughMonth, daysInMonth]
    split <;> omega
  have hstep : ∀ k, daysThroughMonth y k ≤ daysThroughMonth y (k + 1) := by
    intro k
    have : daysThroughMonth y (k + 1) = daysThroughMonth y k + daysInMonth y (k + 1) := rfl
    omega
  have hmono2 : ∀ j k, j ≤ k → daysThroughMonth y j ≤ daysThroughMonth y k := by
    intro j k hjk
    induction k with
    | zero => simp_all
    | succ k ih =>
      rcases Nat.lt_or_ge j (k + 1) with h | h
      · exact le_trans (ih (by omega)) (hstep k)
      · have : j = k + 1 := by omega
        subst this
        exact le_refl _
  calc daysThroughMonth y m ≤ daysThroughMonth y 12 := hmono2 m 12 hm
    _ = 334 + (if isLeap y then 1 else 0) + 31 := h12

/-- First linear index of year `y` (the index before its January 1st). -/
def yearFirst (y : Nat) : Nat := 365 * y + leapsBefore y

theorem yearFirst_succ (y : Nat) :
    yearFirst (y + 1) = yearFirst y + 365 + (if isLeap y then 1 else 0) := by
  unfold yearFirst
  rw [leapsBefore_succ]
  ring

theorem yearFirst_mono {y y' : Nat} (h : y ≤ y') : yearFirst y ≤ yearFirst y' := by
  induction y' with
  | zero => simp_all
  | succ k ih =>
    rcases Nat.lt_or_ge y (k + 1) with h1 | h1
    · have := ih (by omega)
      rw [yearFirst_succ]
      split <;> omega
    · have : y = k + 1 := by omega
      subst this
      exact le_refl _

theorem dayNumber_lower {x : Ymd} (hv : ValidYmd x) : yearFirst x.y + 1 ≤ dayNumber x := by
  obtain ⟨y, m, d⟩ := x
  obtain ⟨hm1, hm2, hd1, hd2⟩ := hv
  unfold dayNumber yearFirst
  simp only at hd1 ⊢
  omega

theorem dayNumber_upper {x : Ymd} (hv : ValidYmd x) : dayNumber x ≤ yearFirst (x.y + 1) := by
  obtain ⟨y, m, d⟩ := x
  obtain ⟨hm1, hm2, hd1, hd2⟩ := hv
  simp only at hm1 hm2 hd1 hd2
  obtain ⟨k, rfl⟩ : ∃ k, m = k + 1 := ⟨m - 1, by omega⟩
  unfold dayNumber
  rw [yearFirst_succ]
  unfold yearFirst
  dsimp only
  simp only [Nat.add_sub_cancel]
  have hstep : daysThroughMonth y (k + 1) = daysThroughMonth y k + daysInMonth y (k + 1) := rfl
  have hle := daysThroughMonth_le y (k + 1) (by omega)
  by_cases hL : isLeap y = true <;> simp only [hL, if_true, if_false] at hle ⊢ <;> omega

theorem dayNumber_lt_of_year_lt {a b : Ymd} (hva : ValidYmd a) (hvb : ValidYmd b)
    (h : a.y < b.y) : dayNumber a < dayNumber b := by
  have h1 := dayNumber_upper hva
  have h2 := dayNumber_lower hvb
  have h3 : yearFirst (a.y + 1) ≤ yearFirst b.y := yearFirst_mono (by omega)
  omega

theorem year_le_of_dayNumber_le {a b : Ymd} (hva : ValidYmd a) (hvb : ValidYmd b)
    (h : dayNumber a ≤ dayNumber b) : a.y ≤ b.y := by
  by_contra hc
  have := dayNumber_lt_of_year_lt hvb hva (by omega)
  omega

theorem daysThroughMonth_succ (y k : Nat) :
    daysThroughMonth y (k + 1) = daysThroughMonth y k + daysInMonth y (k + 1) := rfl

theorem daysThroughMonth_mono (y : Nat) {j k : Nat} (h : j ≤ k) :
    daysThroughMonth y j ≤ daysThroughMonth y k := by
  induction k with
  | zero => simp_all
  | succ k ih =>
    rcases Nat.lt_or_ge j (k + 1) with h1 | h1
    · have := ih (by omega)
      rw [daysThroughMonth_succ]
      have := daysInMonth_pos y (k + 1)
      omega
    · have : j = k + 1 := by omega
      subst this
      exact le_refl _

theorem dayNumber_lt_of_month_lt {y m d m' d' : Nat}
    (hv : ValidYmd ⟨y, m, d⟩) (hv' : ValidYmd ⟨y, m', d'⟩) (h : m < m') :
    dayNumber ⟨y, m, d⟩ < dayNumber ⟨y, m', d'⟩ := by
  obtain ⟨hm1, hm2, hd1, hd2⟩ := hv
  obtain ⟨hm1', hm2', hd1', hd2'⟩ := hv'
  simp only at hm1 hm2 hd1 hd2 hm1' hm2' hd1' hd2'
  unfold dayNumber
  dsimp only
  obtain ⟨k, rfl⟩ : ∃ k, m = k + 1 := ⟨m - 1, by omega⟩
  have hstep := daysThroughMonth_succ y k
  have hmono := daysThroughMonth_mono y (show k + 1 ≤ m' - 1 by omega)
  simp only [Nat.add_sub_cancel]
  omega

theorem calendar_lt_of_dayNumber_lt {a b : Ymd} (hva : ValidYmd a) (hvb : ValidYmd b)
    (h : dayNumber a < dayNumber b) :
    a.y < b.y ∨ (a.y = b.y ∧ (a.m < b.m ∨ (a.m = b.m ∧ a.d < b.d))) := by
  have hy : a.y ≤ b.y := year_le_of_dayNumber_le hva hvb (by omega)
  rcases Nat.lt_or_ge a.y b.y with hy1 | hy1
  · exact Or.inl hy1
  · have hyy : a.y = b.y := by omega
    right
    refine ⟨hyy, ?_⟩
    obtain ⟨ya, ma, da⟩ := a
    obtain ⟨yb, mb, db⟩ := b
    simp only at hyy
    subst hyy
    have hm : ma ≤ mb := by
      by_contra hc
      have := dayNumber_lt_of_month_lt hvb hva (by omega)
      omega
    rcases Nat.lt_or_ge ma mb with hm1 | hm1
    · exact Or.inl hm1
    · have hmm : ma = mb := by omega
      subst hmm
      right
      refine ⟨rfl, ?_⟩
      simp only [dayNumber] at h
      show da < db
      omega

theorem dayNumber_inj {a b : Ymd} (hva : ValidYmd a) (hvb : ValidYmd b)
    (h : dayNumber a = dayNumber b) : a = b := by
  rcases Nat.lt_trichotomy (dayNumber a) (dayNumber b) with hlt | heq | hgt
  · omega
  · obtain ⟨ya, ma, da⟩ := a
    obtain ⟨yb, mb, db⟩ := b
    have hy : ya = yb := by
      have h1 : ya ≤ yb := year_le_of_dayNumber_le hva hvb (by omega)
      have h2 : yb ≤ ya := year_le_of_dayNumber_le hvb hva (by omega)
      omega
    subst hy
    have hm : ma = mb := by
      by_cases h1 : ma < mb
      · have := dayNumber_lt_of_month_lt hva hvb h1
        omega
      · by_cases h2 : mb < ma
        · have := dayNumber_lt_of_month_lt hvb hva h2
          omega
        · omega
    subst hm
    have hd : da = db := by
      simp only [dayNumber] at heq
      omega
    rw [hd]
  · omega

theorem iterate_nextDay_valid (k : Nat) {x : Ymd} (hv : ValidYmd x) :
    ValidYmd (nextDay^[k] x) := by
  induction k with
  | zero => exact hv
  | succ n ih =>
    rw [Function.iterate_succ_apply']
    exact validYmd_nextDay ih

theorem iterate_nextDay_dayNumber (k : Nat) {x : Ymd} (hv : ValidYmd x) :
    dayNumber (nextDay^[k] x) = dayNumber x + k := by
  induction k with
  | zero => rfl
  | succ n ih =>
    rw [Function.iterate_succ_apply', dayNumber_nextDay (iterate_nextDay_valid n hv), ih]
    omega

/-! ## Characterising the date-range loop -/

theorem genLoop_eq (fuel : Nat) (cur : Ymd) (t D : Nat) (hv : ValidYmd cur)
    (ht : t < msPerDay) :
    genLoop fuel cur t (D * msPerDay + (msPerDay - 1)) =
      (List.range (min fuel (D + 1 - dayNumber cur))).map
        (fun i => fmtYmd (nextDay^[i] cur)) := by
  induction fuel generalizing cur with
  | zero => simp [genLoop]
  | succ fuel ih =>
    simp only [genLoop]
    by_cases hle : dayNumber cur ≤ D
    · have hguard : toMs cur t ≤ D * msPerDay + (msPerDay - 1) := by
        unfold toMs msPerDay at *
        omega
      rw [if_pos hguard]
      rw [ih (nextDay cur) (validYmd_nextDay hv)]
      rw [dayNumber_nextDay hv]
      have h1 : D + 1 - dayNumber cur = (D - dayNumber cur) + 1 := by omega
      have h2 : D + 1 - (dayNumber cur + 1) = D - dayNumber cur := by omega
      rw [h1, h2, Nat.succ_min_succ, List.range_succ_eq_map]
      simp only [List.map_cons, List.map_map, Function.iterate_zero_apply]
      congr 1
    · have hguard : ¬ (toMs cur t ≤ D * msPerDay + (msPerDay - 1)) := by
        unfold toMs msPerDay at *
        omega
      rw [if_neg hguard]
      have h0 : D + 1 - dayNumber cur = 0 := by omega
      simp [h0]

theorem generateDateRange_eq (s e : Ymd) (hs : ValidYmd s) :
    generateDateRange (s, 0) (e, 0) =
      (List.range (dayNumber e + 1 - dayNumber s)).map
        (fun i => fmtYmd (nextDay^[i] s)) := by
  unfold generateDateRange
  rw [genLoop_eq (dayNumber e + 1) s 0 (dayNumber e) hs (by unfold msPerDay; omega)]
  congr 1
  have : min (dayNumber e + 1) (dayNumber e + 1 - dayNumber s) =
      dayNumber e + 1 - dayNumber s := by omega
  rw [this]

/-- Claim C3 (amended): when the start is strictly after the end,
`generateDateRange` raises no error — it is a total function whose
`while` loop guard fails at once, returning the empty list (the spec's
`InvalidRange` failure does not exist in the code). -/
theorem generateDateRange_empty_of_inverted (s e : Ymd × Nat)
    (h : dayNumber e.1 < dayNumber s.1) : generateDateRange s e = [] := by
  unfold generateDateRange
  simp only [genLoop]
  rw [if_neg]
  unfold toMs msPerDay
  omega

/-- Counterexample to C3 as stated: an inverted range produces the plain
value `[]`, not an `InvalidRange` failure. -/
theorem generateDateRange_inverted_no_error :
    generateDateRange (⟨2024, 5, 10⟩, 0) (⟨2024, 5, 1⟩, 0) = [] := by rfl

/-- Witness for the amended C3. -/
theorem generateDateRange_empty_of_inverted_witness :
    dayNumber (⟨2024, 5, 1⟩ : Ymd) < dayNumber (⟨2024, 5, 10⟩ : Ymd) ∧
    generateDateRange (⟨2024, 5, 10⟩, 0) (⟨2024, 5, 1⟩, 0) = [] :=
  ⟨by decide, generateDateRange_empty_of_inverted (⟨2024, 5, 10⟩, 0) (⟨2024, 5, 1⟩, 0)
    (by decide)⟩

/-! ## Lexicographic facts about the `yyyy-MM-dd` labels -/

theorem digitChar_lt : ∀ d1 d2 : Nat, d1 < 10 → d2 < 10 → d1 < d2 →
    digitChar d1 < digitChar d2 := by
  intro d1 d2 h1 h2 h
  interval_cases d1 <;> interval_cases d2 <;> first | omega | decide

theorem pad2_eq {n : Nat} (h : n < 100) :
    pad2 n = [digitChar (n / 10), digitChar (n % 10)] := by
  unfold pad2
  rw [if_pos h]

theorem pad2_len {n : Nat} (h : n < 100) : (pad2 n).length = 2 := by
  rw [pad2_eq h]
  rfl

theorem lex_pad2 {a b : Nat} (hab : a < b) (hb : b < 100) :
    List.Lex (· < ·) (pad2 a) (pad2 b) := by
  rw [pad2_eq (by omega), pad2_eq hb]
  rcases Nat.lt_or_ge (a / 10) (b / 10) with h | h
  · exact List.Lex.rel (digitChar_lt _ _ (by omega) (by omega) h)
  · have hq : a / 10 = b / 10 := by omega
    have hr : a % 10 < b % 10 := by omega
    rw [hq]
    exact List.Lex.cons (List.Lex.rel (digitChar_lt _ _ (by omega) (by omega) hr))

theorem pad4_eq {n : Nat} (h : n < 10000) :
    pad4 n = pad2 (n / 100) ++ pad2 (n % 100) := by
  unfold pad4
  rw [if_pos h]

theorem pad4_len {n : Nat} (h : n < 10000) : (pad4 n).length = 4 := by
  rw [pad4_eq h, List.length_append, pad2_len (by omega), pad2_len (by omega)]

theorem lex_append_left {r : Char → Char → Prop} (p : List Char) {t1 t2 : List Char}
    (h : List.Lex r t1 t2) : List.Lex r (p ++ t1) (p ++ t2) := by
  induction p with
  | nil => exact h
  | cons c cs ih => exact List.Lex.cons ih

theorem lex_append_of_lex {r : Char → Char → Prop} {l1 l2 t1 t2 : List Char}
    (hlen : l1.length = l2.length) (h : List.Lex r l1 l2) :
    List.Lex r (l1 ++ t1) (l2 ++ t2) := by
  induction h with
  | nil => simp at hlen
  | rel hr => exact List.Lex.rel hr
  | cons h2 ih => exact List.Lex.cons (ih (by simpa using hlen))

theorem lex_pad4 {a b : Nat} (hab : a < b) (hb : b < 10000) :
    List.Lex (· < ·) (pad4 a) (pad4 b) := by
  rw [pad4_eq (by omega), pad4_eq hb]
  rcases Nat.lt_or_ge (a / 100) (b / 100) with h | h
  · exact lex_append_of_lex (by rw [pad2_len (by omega), pad2_len (by omega)])
      (lex_pad2 h (by omega))
  · have hq : a / 100 = b / 100 := by omega
    have hr : a % 100 < b % 100 := by omega
    rw [hq]
    exact lex_append_left _ (lex_pad2 hr (by omega))

theorem fmtYmd_lt {a b : Ymd} (hva : ValidYmd a) (hvb : ValidYmd b)
    (hya : a.y ≤ 9999) (hyb : b.y ≤ 9999) (h : dayNumber a < dayNumber b) :
    fmtYmd a < fmtYmd b := by
  rw [String.lt_iff_toList_lt]
  suffices key : List.Lex (· < ·) (pad4 a.y ++ '-' :: pad2 a.m ++ '-' :: pad2 a.d)
      (pad4 b.y ++ '-' :: pad2 b.m ++ '-' :: pad2 b.d) from key
  obtain ⟨hma1, hma2, hda1, hda2⟩ := hva
  obtain ⟨hmb1, hmb2, hdb1, hdb2⟩ := hvb
  have hdma : a.d < 100 := by
    have : daysInMonth a.y a.m ≤ 31 := by
      unfold daysInMonth
      split
      · split <;> omega
      · split <;> omega
    omega
  have hdmb : b.d < 100 := by
    have : daysInMonth b.y b.m ≤ 31 := by
      unfold daysInMonth
      split
      · split <;> omega
      · split <;> omega
    omega
  rcases calendar_lt_of_dayNumber_lt ⟨hma1, hma2, hda1, hda2⟩ ⟨hmb1, hmb2, hdb1, hdb2⟩ h with
    hy | ⟨hy, hm | ⟨hm, hd⟩⟩
  · refine lex_append_of_lex ?_ (lex_append_of_lex ?_ (lex_pad4 hy (by omega)))
    · rw [List.length_append, List.length_append, List.length_cons, List.length_cons,
        pad4_len (show a.y < 10000 by omega), pad4_len (show b.y < 10000 by omega),
        pad2_len (show a.m < 100 by omega), pad2_len (show b.m < 100 by omega)]
    · rw [pad4_len (show a.y < 10000 by omega), pad4_len (show b.y < 10000 by omega)]
  · rw [hy]
    refine lex_append_of_lex ?_ (lex_append_left _ (List.Lex.cons (lex_pad2 hm (by omega))))
    rw [List.length_append, List.length_append, List.length_cons, List.length_cons,
      pad2_len (show a.m < 100 by omega), pad2_len (show b.m < 100 by omega)]
  · rw [hy, hm]
    exact lex_append_left _ (List.Lex.cons (lex_pad2 hd (by omega)))

/-- Claim C5: for an explicit range `[s, e]` with `s ≤ e` (valid
calendar dates with four-digit years, midnight time-of-day as produced
by parsing `YYYY-MM-DD`), the generated axis has the inclusive day-count
length, is strictly sorted ascending (hence duplicate-free), and
contains the end day's label even though the end date's time-of-day is
zero. -/
theorem generateDateRange_dense_axis (s e : Ymd) (hvs : ValidYmd s) (hve : ValidYmd e)
    (hy : e.y ≤ 9999) (hse : dayNumber s ≤ dayNumber e) :
    (generateDateRange (s, 0) (e, 0)).length = dayNumber e - dayNumber s + 1 ∧
    List.Sorted (· < ·) (generateDateRange (s, 0) (e, 0)) ∧
    (generateDateRange (s, 0) (e, 0)).Nodup ∧
    fmtYmd e ∈ generateDateRange (s, 0) (e, 0) := by
  rw [generateDateRange_eq s e hvs]
  have hmono : ∀ i j, i < j → j < dayNumber e + 1 - dayNumber s →
      fmtYmd (nextDay^[i] s) < fmtYmd (nextDay^[j] s) := by
    intro i j hij hj
    have hyi : (nextDay^[i] s).y ≤ 9999 := by
      have hdn := iterate_nextDay_dayNumber i hvs
      have hle : dayNumber (nextDay^[i] s) ≤ dayNumber e := by omega
      exact le_trans (year_le_of_dayNumber_le (iterate_nextDay_valid i hvs) hve hle) hy
    have hyj : (nextDay^[j] s).y ≤ 9999 := by
      have hdn := iterate_nextDay_dayNumber j hvs
      have hle : dayNumber (nextDay^[j] s) ≤ dayNumber e := by omega
      exact le_trans (year_le_of_dayNumber_le (iterate_nextDay_valid j hvs) hve hle) hy
    apply fmtYmd_lt (iterate_nextDay_valid i hvs) (iterate_nextDay_valid j hvs) hyi hyj
    rw [iterate_nextDay_dayNumber i hvs, iterate_nextDay_dayNumber j hvs]
    omega
  have hpair : List.Pairwise (· < ·)
      ((List.range (dayNumber e + 1 - dayNumber s)).map
        fun i => fmtYmd (nextDay^[i] s)) := by
    rw [List.pairwise_map]
    apply List.Pairwise.imp_of_mem ?_ (List.pairwise_lt_range _)
    intro i j _ hj hij
    exact hmono i j hij (List.mem_range.mp hj)
  refine ⟨?_, hpair, hpair.imp (fun hab => ne_of_lt hab), ?_⟩
  · rw [List.length_map, List.length_range]
    omega
  · have hk : nextDay^[dayNumber e - dayNumber s] s = e := by
      apply dayNumber_inj (iterate_nextDay_valid _ hvs) hve
      rw [iterate_nextDay_dayNumber _ hvs]
      omega
    rw [List.mem_map]
    exact ⟨dayNumber e - dayNumber s, List.mem_range.mpr (by omega), by rw [hk]⟩

/-- Witness for C5 at a concrete leap-February range. -/
theorem generateDateRange_dense_axis_witness :
    (ValidYmd ⟨2024, 2, 27⟩ ∧ ValidYmd ⟨2024, 3, 1⟩ ∧
      dayNumber ⟨2024, 2, 27⟩ ≤ dayNumber ⟨2024, 3, 1⟩) ∧
    ((generateDateRange (⟨2024, 2, 27⟩, 0) (⟨2024, 3, 1⟩, 0)).length =
        dayNumber ⟨2024, 3, 1⟩ - dayNumber ⟨2024, 2, 27⟩ + 1 ∧
      List.Sorted (· < ·) (generateDateRange (⟨2024, 2, 27⟩, 0) (⟨2024, 3, 1⟩, 0)) ∧
      (generateDateRange (⟨2024, 2, 27⟩, 0) (⟨2024, 3, 1⟩, 0)).Nodup ∧
      fmtYmd ⟨2024, 3, 1⟩ ∈ generateDateRange (⟨2024, 2, 27⟩, 0) (⟨2024, 3, 1⟩, 0)) :=
  ⟨⟨by decide, by decide, by decide⟩,
   generateDateRange_dense_axis ⟨2024, 2, 27⟩ ⟨2024, 3, 1⟩ (by decide) (by decide)
     (by decide) (by decide)⟩
